import Mathlib

/-!
Shallow embedding of the IncludeGuard analysis engine
(`includeguard/analyzer/{parser,graph,estimator,pch_recommender}.py`) and
proofs about it.  Text is modelled as `List Char`; Python floats are
modelled as exact rationals; reading a file from disk is modelled by an
`Option (List Char)` (`none` = unreadable).  Python definition and field
names are kept (snake_case) where Lean allows.
-/

namespace IncludeGuard

/-! ### Basic text utilities -/

/-- Whitespace characters recognised by Python's `str.strip()` (ASCII part). -/
def isPySpace (c : Char) : Bool :=
  c = ' ' || c = '\t' || c = '\n' || c = '\r' || c = '\x0b' || c = '\x0c'

/-- `content.split('\n')`: the (always nonempty) list of lines of a text. -/
def linesOf : List Char → List (List Char)
  | [] => [[]]
  | c :: xs =>
    if c = '\n' then [] :: linesOf xs
    else
      match linesOf xs with
      | h :: t => (c :: h) :: t
      | [] => [[c]]

/-- A line is blank when `line.strip()` is empty, i.e. all chars are spaces. -/
def blankLine (l : List Char) : Bool := l.all isPySpace

/-- Number of non-blank lines of a text. -/
def nbLines (l : List Char) : Nat := (linesOf l).countP (fun ln => !blankLine ln)

/-- Number of blank lines of a text. -/
def blLines (l : List Char) : Nat := (linesOf l).countP blankLine

/-- `(N, T)` where `N` counts the non-blank lines of the text and `T` counts
the non-blank lines strictly after the first line.  Character-level recursion
used to reason about the comment strippers. -/
def nbT : List Char → Nat × Nat
  | [] => (0, 0)
  | c :: xs =>
    let p := nbT xs
    if c = '\n' then (p.1, p.1)
    else if isPySpace c then p
    else (1 + p.2, p.2)

/-- Does `pre` occur at the head of `l`? (character list prefix test). -/
def isPrefList : List Char → List Char → Bool
  | [], _ => true
  | _ :: _, [] => false
  | a :: as, b :: bs => a = b && isPrefList as bs

/-- Python substring containment `needle in haystack`. -/
def containsSub (needle : List Char) : List Char → Bool
  | [] => needle.isEmpty
  | c :: rest => isPrefList needle (c :: rest) || containsSub needle rest

/-- Python `str.lower()` (ASCII). -/
def pyLower (l : List Char) : List Char := l.map Char.toLower

/-- Count of non-overlapping occurrences of a nonempty `needle`
(Python `str.count`); scans left to right.  (The program only counts the
needle `"template"`, so the empty-needle case is irrelevant and returns 0.) -/
def countSub (needle : List Char) : List Char → Nat
  | [] => 0
  | c :: rest =>
    if h : needle.isEmpty then 0
    else if isPrefList needle (c :: rest) then
      1 + countSub needle ((c :: rest).drop needle.length)
    else
      countSub needle rest
  termination_by l => l.length
  decreasing_by
  · have : needle.length ≠ 0 := by
      simpa [List.isEmpty_iff, List.length_eq_zero] using h
    simp only [List.length_drop, List.length_cons]
    omega
  · simp

/-- Final path component: everything after the last `/`. -/
def afterLastSlash (l : List Char) : List Char :=
  ((l.reverse.takeWhile (· ≠ '/')).reverse)

/-- `pathlib.Path(header).stem`: the final component with its last suffix
removed, where the last `.` only counts when it is neither the first nor the
last character of the name. -/
def pyStem (header : List Char) : List Char :=
  let name := afterLastSlash header
  let relIdx := (name.reverse.takeWhile (· ≠ '.')).length
  let i := name.length - 1 - relIdx   -- index of last '.', when one exists
  if ('.' ∈ name) ∧ 0 < i ∧ i < name.length - 1 then name.take i else name

/-! ### Parser: data model and file metrics
(`includeguard/analyzer/parser.py`) -/

/-- One `#include` directive (dataclass `Include`). -/
structure Include where
  header : String
  line_number : Nat
  is_system : Bool
  full_path : String := ""
  deriving Repr, DecidableEq

/-- Analysis results for a single source file (dataclass `FileAnalysis`).
`comment_lines` is an `Int`: it is computed in Python by subtraction. -/
structure FileAnalysis where
  filepath : String
  includes : List Include := []
  total_lines : Nat := 0
  code_lines : Nat := 0
  comment_lines : Int := 0
  blank_lines : Nat := 0
  has_templates : Bool := false
  has_macros : Bool := false
  namespace_count : Nat := 0
  class_count : Nat := 0
  deriving Repr, DecidableEq

/-- Is there a `*/` closer anywhere in the text? -/
def hasClose : List Char → Bool
  | '*' :: '/' :: _ => true
  | _ :: rest => hasClose rest
  | [] => false

/-- Drop everything up to and including the first `*/`. -/
def dropClose : List Char → List Char
  | '*' :: '/' :: rest => rest
  | _ :: rest => dropClose rest
  | [] => []

/-- `MULTI_COMMENT.sub('', content)`: remove each leftmost `/* ... */` block
(non-greedy, so each block ends at the first following `*/`); a `/*` with no
later `*/` is left in place, exactly as the regex leaves it unmatched. -/
def stripBlock : List Char → List Char
  | '/' :: '*' :: rest =>
    if hasClose rest then stripBlock (dropClose rest) else '/' :: '*' :: rest
  | c :: rest => c :: stripBlock rest
  | [] => []
  termination_by l => l.length
  decreasing_by
  · have key : ∀ l : List Char, (dropClose l).length ≤ l.length := by
      intro l
      induction l using dropClose.induct with
      | case1 rest => simp [dropClose]; omega
      | case2 c rest h ih =>
        rw [show dropClose (c :: rest) = dropClose rest from by
          cases c; simp_all [dropClose]]
        simpa using Nat.le_succ_of_le ih
      | case3 => simp [dropClose]
    have := key rest
    simp only [List.length_cons]
    omega
  · simp

/-- `SINGLE_COMMENT.sub('', content)` (multiline mode): remove from each `//`
to the end of its line, keeping the newline. -/
def stripLine : List Char → List Char
  | '/' :: '/' :: rest => stripLine (rest.dropWhile (· ≠ '\n'))
  | c :: rest => c :: stripLine rest
  | [] => []
  termination_by l => l.length
  decreasing_by
  · have : (rest.dropWhile (· ≠ '\n')).length ≤ rest.length :=
      (List.dropWhile_suffix _).length_le
    simp only [List.length_cons]
    omega
  · simp

/-- `IncludeParser._remove_comments`: block comments first, then `//` tails. -/
def removeComments (content : List Char) : List Char :=
  stripLine (stripBlock content)

/-- The line metrics computed at the end of `IncludeParser.parse_file`:
`total_lines` is the line count of the raw text, `code_lines` counts the
non-blank lines of the comment-stripped text, `blank_lines` counts the blank
lines of the raw text, and `comment_lines` is defined by subtraction. -/
def parseMetrics (content : List Char) : FileAnalysis :=
  let total := (linesOf content).length
  let code := nbLines (removeComments content)
  let blank := blLines content
  { filepath := ""
    total_lines := total
    code_lines := code
    blank_lines := blank
    comment_lines := (total : Int) - code - blank }

/-! ### Dependency graph (`includeguard/analyzer/graph.py`)

The Python class wraps a `networkx.DiGraph`.  We model the digraph as
insertion-ordered node and edge lists without duplicates; node attributes are
not needed by any claim.  `networkx` itself is an external library, so its
query functions (`descendants`, `shortest_path_length`, `simple_cycles`) are
modelled by their documented semantics: reachability, BFS distance, and
elementary-cycle enumeration. -/

structure DiGraph where
  nodes : List String := []
  edges : List (String × String) := []
  deriving Repr, DecidableEq

/-- `graph.add_node` (idempotent). -/
def addNode (g : DiGraph) (n : String) : DiGraph :=
  if n ∈ g.nodes then g else { g with nodes := g.nodes ++ [n] }

/-- `graph.add_edge`: inserts missing endpoints, then the edge (idempotent). -/
def addEdge (g : DiGraph) (u v : String) : DiGraph :=
  let g := addNode (addNode g u) v
  if (u, v) ∈ g.edges then g else { g with edges := g.edges ++ [(u, v)] }

/-- Target node chosen for an include in `DependencyGraph.build`: the resolved
path when resolution produced something different from the raw header text,
otherwise `<header>` for system includes and the bare header otherwise. -/
def targetOf (inc : Include) : String :=
  if inc.full_path ≠ "" ∧ inc.full_path ≠ inc.header then inc.full_path
  else if inc.is_system then "<" ++ inc.header ++ ">" else inc.header

/-- `DependencyGraph.build`: pass 1 adds one node per analysed file, pass 2
adds one edge per include occurrence (duplicates collapse). -/
def build (analyses : List FileAnalysis) : DiGraph :=
  let g := analyses.foldl (fun g a => addNode g a.filepath) {}
  analyses.foldl
    (fun g a => a.includes.foldl (fun g inc => addEdge g a.filepath (targetOf inc)) g) g

/-- Successor list of a node (forward adjacency). -/
def successors (g : DiGraph) (n : String) : List String :=
  (g.edges.filter (fun e => e.1 = n)).map (·.2)

/-- `get_direct_dependencies`: successors, `[]` for unknown keys. -/
def getDirectDependencies (g : DiGraph) (filepath : String) : List String :=
  if filepath ∈ g.nodes then successors g filepath else []

/-- Append the elements of `xs` not already present (set-union step). -/
def addNew (acc : List String) (xs : List String) : List String :=
  xs.foldl (fun a x => if x ∈ a then a else a ++ [x]) acc

/-- One round of forward closure: a set together with all its successors. -/
def stepOnce (g : DiGraph) (s : List String) : List String :=
  addNew s (s.flatMap (successors g))

/-- Iterated forward closure. -/
def iterSteps (g : DiGraph) : Nat → List String → List String
  | 0, s => s
  | n + 1, s => iterSteps g n (stepOnce g s)

/-- `networkx.descendants g n`: every node reachable from `n`, excluding `n`
itself (networkx always removes the source, even on a self-loop).
`g.nodes.length` closure rounds reach a fixpoint. -/
def descendantsOf (g : DiGraph) (n : String) : List String :=
  (iterSteps g g.nodes.length [n]).filter (· ≠ n)

/-- `get_transitive_dependencies`: descendants, empty for unknown keys. -/
def getTransitiveDependencies (g : DiGraph) (filepath : String) : List String :=
  if filepath ∈ g.nodes then descendantsOf g filepath else []

/-- `get_dependents`: predecessors, empty for unknown keys. -/
def getDependents (g : DiGraph) (filepath : String) : List String :=
  if filepath ∈ g.nodes then
    (g.edges.filter (fun e => e.2 = filepath)).map (·.1)
  else []

/-- BFS distance search: `fuel` remaining rounds, `frontier` the nodes at the
current level, `visited` everything seen so far. -/
def spGo (g : DiGraph) (dst : String) :
    Nat → List String → List String → Nat → Option Nat
  | 0, _, _, _ => none
  | fuel + 1, frontier, visited, lvl =>
    if dst ∈ frontier then some lvl
    else
      let next := addNew [] ((frontier.flatMap (successors g)).filter (· ∉ visited))
      if next = [] then none
      else spGo g dst fuel next (visited ++ next) (lvl + 1)

/-- `networkx.shortest_path_length g src dst` (unweighted, directed). -/
def spLen (g : DiGraph) (src dst : String) : Option Nat :=
  spGo g dst (g.nodes.length + 1) [src] [src] 0

/-- `get_dependency_depth`: 0 for unknown keys or no descendants, otherwise
the maximum shortest-path length to a descendant; descendants without a path
are skipped (the `except: continue` branch). -/
def getDependencyDepth (g : DiGraph) (filepath : String) : Nat :=
  if filepath ∈ g.nodes then
    (descendantsOf g filepath).foldl
      (fun m d => match spLen g filepath d with
        | some k => max m k
        | none => m) 0
  else 0

/-- Position of a node in the insertion order (used to canonicalise cycles). -/
def nodeIdx (g : DiGraph) (n : String) : Nat := g.nodes.indexOf n

/-- DFS enumeration of the elementary cycles through `root` whose other nodes
all come strictly after `root` in insertion order (so each cycle is produced
exactly once, rooted at its first-inserted node).  `path` is the simple path
built so far, `current` its last node. -/
def cyclesDFS (g : DiGraph) (root : String) :
    Nat → String → List String → List (List String)
  | 0, _, _ => []
  | fuel + 1, current, path =>
    (successors g current).flatMap (fun v =>
      if v = root then [path]
      else if v ∈ path then []
      else if nodeIdx g v ≤ nodeIdx g root then []
      else cyclesDFS g root fuel v (path ++ [v]))

/-- `find_cycles` (`networkx.simple_cycles`): all elementary cycles, each
listed once as a node sequence; a self-loop is a length-1 cycle. -/
def findCycles (g : DiGraph) : List (List String) :=
  g.nodes.flatMap (fun n => cyclesDFS g n g.nodes.length n [n])

/-! ### Cost estimator (`includeguard/analyzer/estimator.py`)

Python floats are modelled as exact rationals; `round(x, n)` is modelled by
round-half-to-even at `n` decimal digits; reading a source file is modelled
by a filesystem map `fs : String → Option (List Char)` (`none` = the read
raised).  The per-instance cache only memoises the pure cost function, so it
is not modelled. -/

/-- Round half to even to the nearest integer (semantics of Python `round`). -/
def rhe (q : ℚ) : ℤ :=
  if q - ⌊q⌋ = 1 / 2 then (if 2 ∣ ⌊q⌋ then ⌊q⌋ else ⌊q⌋ + 1) else round q

/-- Python `round(x, 1)`. -/
def pyRound1 (q : ℚ) : ℚ := (rhe (10 * q) : ℚ) / 10

/-- Python `round(x, 2)`. -/
def pyRound2 (q : ℚ) : ℚ := (rhe (100 * q) : ℚ) / 100

/-- `CostEstimator.EXPENSIVE_HEADERS`, in declaration order. -/
def EXPENSIVE_HEADERS : List (String × ℚ) :=
  [("iostream", 1500), ("iomanip", 800), ("sstream", 700), ("fstream", 900),
   ("vector", 800), ("map", 900), ("unordered_map", 1000), ("set", 850),
   ("unordered_set", 950), ("deque", 750), ("list", 700), ("array", 500),
   ("algorithm", 1200), ("iterator", 600), ("numeric", 650), ("functional", 950),
   ("string", 700), ("regex", 2000),
   ("memory", 850), ("shared_ptr", 800), ("unique_ptr", 700),
   ("chrono", 1100), ("ctime", 400),
   ("thread", 1200), ("mutex", 900), ("atomic", 800), ("condition_variable", 950),
   ("cmath", 600), ("complex", 800), ("random", 1300),
   ("utility", 500), ("tuple", 700), ("variant", 900), ("optional", 750),
   ("any", 800),
   ("boost/", 3000), ("boost/algorithm", 2500), ("boost/asio", 4000),
   ("boost/spirit", 5000), ("boost/fusion", 3500),
   ("eigen/", 2500), ("opencv", 3500), ("tensorflow", 4500), ("qt", 2000)]

/-- `CostEstimator._get_base_cost`: first table entry that is a substring of
the lower-cased header wins; otherwise headers starting with `<` or lacking a
`/` get the system default 300, the rest the user default 150. -/
def getBaseCost (header : String) : ℚ :=
  let hl := pyLower header.data
  match EXPENSIVE_HEADERS.find? (fun kv => containsSub kv.1.data hl) with
  | some kv => kv.2
  | none =>
    if header.data.head? = some '<' ∨ ¬ ('/' ∈ header.data) then 300 else 150

/-- `CostEstimator._estimate_transitive_cost`. -/
def estimateTransitiveCost (g : DiGraph) (header : String) : ℚ :=
  let depth := getDependencyDepth g header
  let numDeps := (getTransitiveDependencies g header).length
  let cost : ℚ := numDeps * 50 + depth * 100
  if 5 < depth then cost + (depth - 5 : ℕ) * 200 else cost

/-- `CostEstimator.estimate_header_cost` (the cache is a pure memo). -/
def estimateHeaderCost (g : DiGraph) (header : String)
    (analysis : Option FileAnalysis := none) : ℚ :=
  let cost := getBaseCost header
  let cost :=
    match analysis with
    | none => cost
    | some a =>
      let c := cost + a.total_lines * (1 / 2 : ℚ)
      let c := if a.has_templates then
          c * (3 / 2) + (countSub "template".data header.data) * 200
        else c
      let c := if a.has_macros then c * (6 / 5) else c
      c + a.class_count * 50 + a.namespace_count * 10
  cost + estimateTransitiveCost g header

/-- `re.sub(r'#include.*', '', content)`: drop from each occurrence of
`#include` to the end of its line. -/
def stripIncludes : List Char → List Char
  | '#' :: 'i' :: 'n' :: 'c' :: 'l' :: 'u' :: 'd' :: 'e' :: rest =>
    stripIncludes (rest.dropWhile (· ≠ '\n'))
  | c :: rest => c :: stripIncludes rest
  | [] => []
  termination_by l => l.length
  decreasing_by
  · have : (rest.dropWhile (· ≠ '\n')).length ≤ rest.length :=
      (List.dropWhile_suffix _).length_le
    simp only [List.length_cons]
    omega
  · simp

/-- Word-constituent characters for the regex `\b` boundary. -/
def isWordChar (c : Char) : Bool := c.isAlphanum || c = '_'

/-- `re.search(r'\bstd::', content)`: an occurrence of `std::` not preceded
by a word character.  `prev` records whether the previous char is one. -/
def hasStdColons : Bool → List Char → Bool
  | prev, 's' :: 't' :: 'd' :: ':' :: ':' :: rest =>
    if !prev then true
    else hasStdColons true ('t' :: 'd' :: ':' :: ':' :: rest)
  | _, c :: rest => hasStdColons (isWordChar c) rest
  | _, [] => false
  termination_by _ l => l.length
  decreasing_by all_goals simp

/-- The signature-symbol table of `CostEstimator._check_symbol_usage`. -/
def headerSymbols : List (String × List String) :=
  [("iostream", ["cout", "cin", "endl", "cerr"]),
   ("vector", ["vector", "push_back", "emplace_back"]),
   ("string", ["string", "to_string"]),
   ("map", ["map", "unordered_map"]),
   ("algorithm", ["sort", "find", "transform", "for_each"]),
   ("memory", ["make_shared", "make_unique", "shared_ptr", "unique_ptr"]),
   ("thread", ["thread", "join", "detach"]),
   ("mutex", ["mutex", "lock_guard", "unique_lock"])]

/-- `CostEstimator._check_symbol_usage`: the first table key contained in the
header decides; the function then reports whether any of its symbols occurs
in the text (case-sensitive). -/
def checkSymbolUsage (header : String) (content : List Char) : Bool :=
  match headerSymbols.find? (fun kv => containsSub kv.1.data header.data) with
  | some kv => kv.2.any (fun s => containsSub s.data content)
  | none => false

/-- `CostEstimator.check_header_usage`.  `content?` is the result of reading
`source_file` (`none` = the read raised, giving the conservative
`(True, 0.0)`).  Three signals are scored out of a fixed total of three. -/
def checkHeaderUsage (content? : Option (List Char)) (header : String) :
    Bool × ℚ :=
  match content? with
  | none => (true, 0)
  | some raw =>
    let content := stripIncludes raw
    let baseName := pyStem header.data
    let p1 := containsSub (pyLower baseName) (pyLower content)
    let p2 := header.data.head? = some '<' && hasStdColons false content
    let p3 := checkSymbolUsage header content
    let found : ℚ :=
      (if p1 then 1 else 0) + (if p2 then 1 else 0) + (if p3 then 1 else 0)
    let confidence := found / 3
    (confidence > 3 / 10, confidence)

/-- `CostEstimator._calculate_estimate_confidence`. -/
def calculateEstimateConfidence (inc : Include)
    (analysis : Option FileAnalysis) : ℚ :=
  let c : ℚ := 1 / 2
  let c := if EXPENSIVE_HEADERS.any
      (fun kv => containsSub kv.1.data (pyLower inc.header.data)) then
      c + 3 / 10 else c
  let c := if analysis.isSome then c + 1 / 5 else c
  let c := if inc.is_system &&
      !(EXPENSIVE_HEADERS.any (fun kv => kv.1 = inc.header)) then
      c - 1 / 5 else c
  max 0 (min 1 c)

/-- One per-include entry of `CostEstimator.analyze_file_costs`. -/
structure CostEntry where
  header : String
  line : Nat
  estimated_cost : ℚ
  is_system : Bool
  likely_used : Bool
  usage_confidence : ℚ
  estimate_confidence : ℚ
  full_path : String
  deriving Repr, DecidableEq

/-- Stable insertion of `x` into a list sorted descending by `key`:
`x` goes in front of the first strictly-smaller element. -/
def insertDesc (key : α → ℚ) (x : α) : List α → List α
  | [] => [x]
  | y :: ys => if key y < key x then x :: y :: ys else y :: insertDesc key x ys

/-- Stable descending sort by `key` (the semantics of Python
`list.sort(key=key, reverse=True)`). -/
def sortDesc (key : α → ℚ) (l : List α) : List α :=
  l.foldl (fun acc x => insertDesc key x acc) []

/-- Association-list lookup, modelling `dict.get`. -/
def lookup? (m : List (String × β)) (k : String) : Option β :=
  (m.find? (fun kv => kv.1 = k)).map (·.2)

/-- `CostEstimator.analyze_file_costs`: one entry per include of the file,
sorted by estimated cost descending.  `fs` models the filesystem read used by
`check_header_usage`; `allAnalyses` is the path-indexed analysis dict. -/
def analyzeFileCosts (g : DiGraph) (fs : String → Option (List Char))
    (analysis : FileAnalysis) (allAnalyses : List (String × FileAnalysis)) :
    List CostEntry :=
  let results := analysis.includes.map (fun inc =>
    let headerAnalysis := lookup? allAnalyses inc.full_path
    let cost := estimateHeaderCost g inc.header headerAnalysis
    let u := checkHeaderUsage (fs analysis.filepath) inc.header
    let ec := calculateEstimateConfidence inc headerAnalysis
    { header := inc.header
      line := inc.line_number
      estimated_cost := pyRound1 cost
      is_system := inc.is_system
      likely_used := u.1
      usage_confidence := pyRound2 u.2
      estimate_confidence := pyRound2 ec
      full_path := inc.full_path })
  sortDesc (·.estimated_cost) results

/-- The per-file report of `CostEstimator.generate_report` (fields the claims
are about; the `file_metrics` sub-dict simply copies `analysis` fields). -/
structure CostReport where
  file : String
  total_includes : Nat
  total_estimated_cost : ℚ
  wasted_cost : ℚ
  potential_savings_pct : ℚ
  top_expensive : List CostEntry
  optimization_opportunities : List CostEntry
  all_includes : List CostEntry
  deriving Repr, DecidableEq

/-- `CostEstimator.generate_report`. -/
def generateReport (g : DiGraph) (fs : String → Option (List Char))
    (analysis : FileAnalysis) (allAnalyses : List (String × FileAnalysis)) :
    CostReport :=
  let costs := analyzeFileCosts g fs analysis allAnalyses
  let totalCost := (costs.map (·.estimated_cost)).sum
  let unusedCost := ((costs.filter (fun c => !c.likely_used)).map
    (·.estimated_cost)).sum
  let opportunities := costs.filter
    (fun c => !c.likely_used && 500 < c.estimated_cost)
  let opportunities := sortDesc (·.estimated_cost) opportunities
  let pct : ℚ := if 0 < totalCost then unusedCost / totalCost * 100 else 0
  { file := analysis.filepath
    total_includes := costs.length
    total_estimated_cost := pyRound1 totalCost
    wasted_cost := pyRound1 unusedCost
    potential_savings_pct := pyRound1 pct
    top_expensive := costs.take 5
    optimization_opportunities := opportunities
    all_includes := costs }

/-! ### PCH recommender (`includeguard/analyzer/pch_recommender.py`) -/

/-- `PCHRecommender.stable_system_headers` (bracketed names, as written). -/
def stableSystemHeaders : List String :=
  ["<iostream>", "<vector>", "<string>", "<map>", "<algorithm>",
   "<memory>", "<functional>", "<utility>", "<array>", "<tuple>",
   "<unordered_map>", "<set>", "<queue>", "<stack>", "<deque>",
   "<list>", "<cmath>", "<cstring>", "<cstdio>", "<cstdlib>",
   "<fstream>", "<sstream>", "<iomanip>", "<stdexcept>",
   "<type_traits>", "<chrono>", "<thread>", "<mutex>"]

/-- One PCH recommendation record (`used_by_files`, a display-only sample of
five file names, is not modelled). -/
structure PCHRecommendation where
  header : String
  usage_count : Nat
  cost : ℚ
  pch_score : ℚ
  estimated_savings : ℚ
  is_system : Bool
  is_stable : Bool
  total_files_using : Nat
  deriving Repr, DecidableEq

/-- One include processed by the recommender's tally loop: a first
occurrence of the header appends a fresh record, a repeat bumps its count
and adds the using file's base name to its name set. -/
def pchTallyStep (g : DiGraph) (name : String)
    (acc : List (String × Nat × ℚ × List String)) (inc : Include) :
    List (String × Nat × ℚ × List String) :=
  match acc.partition (fun kv => kv.1 = inc.header) with
  | ([], _) =>
    acc ++ [(inc.header, 1, estimateHeaderCost g inc.header, [name])]
  | ((_, n, c, files) :: _, _) =>
    acc.map (fun kv =>
      if kv.1 = inc.header then
        (kv.1, n + 1, c, if name ∈ files then files else files ++ [name])
      else kv)

/-- Tally of the recommender's first loop: per header (keyed by the raw
`inc.header` text, first-occurrence order) the usage count, the memoised
cost, and the set of base names of files using it. -/
def pchTally (g : DiGraph) (analyses : List FileAnalysis) :
    List (String × Nat × ℚ × List String) :=
  analyses.foldl (fun acc a =>
    a.includes.foldl
      (pchTallyStep g (String.mk (afterLastSlash a.filepath.data))) acc) []

/-- `PCHRecommender.recommend_pch_headers`. -/
def recommendPchHeaders (g : DiGraph) (analyses : List FileAnalysis)
    (minUsageCount : Nat := 3) (maxRecommendations : Nat := 20) :
    List PCHRecommendation :=
  let recs := (pchTally g analyses).filterMap (fun kv =>
    let (header, usageCount, cost, files) := kv
    if usageCount < minUsageCount then none
    else if cost < 100 then none
    else
      let pchScore : ℚ := usageCount * cost
      let pchCreationCost := cost * (6 / 5)
      let estimatedSavings := cost * usageCount - pchCreationCost
      let isSystem := header.data.head? = some '<'
      let isStable := header ∈ stableSystemHeaders
      let stabilityBonus : ℚ :=
        if isStable then 3 / 2 else if isSystem then 6 / 5 else 1
      some { header := header
             usage_count := usageCount
             cost := cost
             pch_score := pchScore * stabilityBonus
             estimated_savings := max 0 estimatedSavings
             is_system := isSystem
             is_stable := isStable
             total_files_using := files.length })
  (sortDesc (·.pch_score) recs).take maxRecommendations

/-! ### Concrete example inputs used by several claims -/

/-- An acyclic four-file include chain `a → b → c → d`, as the parser would
produce it (quoted includes resolved to absolute paths). -/
def chainExampleAnalyses : List FileAnalysis :=
  [{ filepath := "/a.cpp",
     includes := [{ header := "b.h", line_number := 1, is_system := false,
                    full_path := "/b.h" }] },
   { filepath := "/b.h",
     includes := [{ header := "c.h", line_number := 1, is_system := false,
                    full_path := "/c.h" }] },
   { filepath := "/c.h",
     includes := [{ header := "d.h", line_number := 1, is_system := false,
                    full_path := "/d.h" }] },
   { filepath := "/d.h" }]

def chainExampleG : DiGraph := build chainExampleAnalyses

/-- A single file that includes itself (`#include "a.h"` inside `/a.h`,
resolved back to `/a.h`). -/
def selfExampleAnalyses : List FileAnalysis :=
  [{ filepath := "/a.h",
     includes := [{ header := "a.h", line_number := 1, is_system := false,
                    full_path := "/a.h" }] }]

def selfExampleG : DiGraph := build selfExampleAnalyses

/-- Two files that mutually include each other. -/
def mutualExampleG : DiGraph := build
  [{ filepath := "/a.h",
     includes := [{ header := "b.h", line_number := 1, is_system := false,
                    full_path := "/b.h" }] },
   { filepath := "/b.h",
     includes := [{ header := "a.h", line_number := 1, is_system := false,
                    full_path := "/a.h" }] }]

/-- A three-file include ring. -/
def ringExampleG : DiGraph := build
  [{ filepath := "/a.h",
     includes := [{ header := "b.h", line_number := 1, is_system := false,
                    full_path := "/b.h" }] },
   { filepath := "/b.h",
     includes := [{ header := "c.h", line_number := 1, is_system := false,
                    full_path := "/c.h" }] },
   { filepath := "/c.h",
     includes := [{ header := "a.h", line_number := 1, is_system := false,
                    full_path := "/a.h" }] }]

/-- Three files, each with a single `#include <iostream>` (the parser stores
the header text without the angle brackets and resolves it to `<iostream>`). -/
def pchExampleAnalyses : List FileAnalysis :=
  [{ filepath := "/a.cpp",
     includes := [{ header := "iostream", line_number := 1, is_system := true,
                    full_path := "<iostream>" }] },
   { filepath := "/b.cpp",
     includes := [{ header := "iostream", line_number := 1, is_system := true,
                    full_path := "<iostream>" }] },
   { filepath := "/c.cpp",
     includes := [{ header := "iostream", line_number := 1, is_system := true,
                    full_path := "<iostream>" }] }]

def pchExampleG : DiGraph := build pchExampleAnalyses

/-- The single recommendation the recommender produces on
`pchExampleAnalyses`. -/
def pchExampleRec : PCHRecommendation :=
  { header := "iostream", usage_count := 3, cost := 1500,
    pch_score := 4500, estimated_savings := 2700,
    is_system := false, is_stable := false, total_files_using := 3 }

/-- The C2 scenario file: `#include <iostream>` then `std::cout << "x";`. -/
def iostreamExampleContent : List Char :=
  "#include <iostream>\nstd::cout << \"x\";".data

/-- A one-include analysis used to instantiate the report invariants. -/
def reportExampleAnalysis : FileAnalysis :=
  { filepath := "/w.cpp",
    includes := [{ header := "b.h", line_number := 1, is_system := false,
                   full_path := "/b.h" }] }

/-- A filesystem on which every read raises. -/
def unreadableFs : String → Option (List Char) := fun _ => none

/-- The single cost entry the report produces on `reportExampleAnalysis`. -/
def reportExampleEntry : CostEntry :=
  { header := "b.h", line := 1,
    estimated_cost := pyRound1 (estimateHeaderCost chainExampleG "b.h" none),
    is_system := false, likely_used := true,
    usage_confidence := pyRound2 0,
    estimate_confidence := pyRound2 (calculateEstimateConfidence
      { header := "b.h", line_number := 1, is_system := false,
        full_path := "/b.h" } none),
    full_path := "/b.h" }

/-! ### Claims -/

/-- Claim C1, counterexample.  The claim asserts `base_cost` returns the
user default 150 for `"totally_unknown.h"` when the header was included via
quotes; but `_get_base_cost` receives only the header text (the include style
is not an input), and a slash-free unmatched header always falls into the
`'/' not in header` system branch, giving 300. -/
theorem base_cost_quoted_unknown_counterexample :
    getBaseCost "totally_unknown.h" = 300 ∧ (300 : ℚ) ≠ 150 := by
  constructor
  · decide
  · norm_num

/-- Claim C1 (amended): the base-cost lookup returns 1500 for `"iostream"`,
2000 for `"regex"`, 800 for `"vector"`; for the unmatched header
`"totally_unknown.h"` it returns the system default 300 regardless of the
include style (the style is not an input to the lookup; the user default 150
is only reached by unmatched headers that contain a `/` and do not start
with `<`, such as `"myproj/totally_unknown.h"`). -/
theorem base_cost_values :
    getBaseCost "iostream" = 1500 ∧ getBaseCost "regex" = 2000 ∧
    getBaseCost "vector" = 800 ∧ getBaseCost "totally_unknown.h" = 300 ∧
    getBaseCost "myproj/totally_unknown.h" = 150 := by
  refine ⟨by decide, by decide, by decide, by decide, by decide⟩

/-- Claim C2.  On a file whose whole content is `#include <iostream>`
followed by `std::cout << "x";`, the usage check on the file's `iostream`
include returns `likely_used = true` but confidence 1/3, not the 0.5 the
spec (and the repository's own tests) state: `total_patterns` is incremented
for the `std::` signal even though that signal is only evaluated for headers
whose stored text starts with `<`, which the parsed `"iostream"` never does,
so the denominator is always 3. -/
theorem check_header_usage_iostream_scenario :
    checkHeaderUsage (some iostreamExampleContent) "iostream" = (true, 1 / 3) ∧
    ((1 : ℚ) / 3) ≠ 1 / 2 := by
  have h : stripIncludes iostreamExampleContent = "\nstd::cout << \"x\";".data := by
    simp [stripIncludes, iostreamExampleContent]
  constructor
  · simp only [checkHeaderUsage, h]
    have p1 : containsSub (pyLower (pyStem "iostream".data))
        (pyLower "\nstd::cout << \"x\";".data) = false := by decide
    have p3 : checkSymbolUsage "iostream" "\nstd::cout << \"x\";".data = true := by
      decide
    simp [p1, p3]
    norm_num
  · norm_num

/-- Claim C5: `find_cycles` on the two-file mutual include returns a cycle
containing both files; on the three-file ring a cycle of length 3; on the
acyclic chain the empty list; and on a directly self-including file a cycle
of length 1. -/
theorem find_cycles_scenarios :
    (∃ c ∈ findCycles mutualExampleG, "/a.h" ∈ c ∧ "/b.h" ∈ c) ∧
    (∃ c ∈ findCycles ringExampleG, c.length = 3) ∧
    findCycles chainExampleG = [] ∧
    (∃ c ∈ findCycles selfExampleG, c.length = 1) := by
  refine ⟨⟨["/a.h", "/b.h"], by decide, by decide, by decide⟩,
    ⟨["/a.h", "/b.h", "/c.h"], by decide, by decide⟩,
    by decide,
    ⟨["/a.h"], by decide, by decide⟩⟩

/-! ### Helper lemmas -/

theorem mem_insertDesc {key : α → ℚ} {x a : α} {l : List α} :
    a ∈ insertDesc key x l ↔ a = x ∨ a ∈ l := by
  induction l with
  | nil => simp [insertDesc]
  | cons y ys ih =>
    rw [insertDesc]
    split
    · simp [List.mem_cons]
    · simp only [List.mem_cons, ih]
      tauto

theorem mem_sortDesc_aux {key : α → ℚ} {a : α} :
    ∀ {l acc : List α},
      a ∈ l.foldl (fun acc x => insertDesc key x acc) acc → a ∈ acc ∨ a ∈ l := by
  intro l
  induction l with
  | nil => exact fun h => Or.inl h
  | cons x xs ih =>
    intro acc h
    rcases ih h with h' | h'
    · rcases mem_insertDesc.mp h' with rfl | h''
      · exact Or.inr (List.mem_cons_self _ _)
      · exact Or.inl h''
    · exact Or.inr (List.mem_cons_of_mem _ h')

theorem mem_sortDesc {key : α → ℚ} {a : α} {l : List α}
    (h : a ∈ sortDesc key l) : a ∈ l := by
  rw [sortDesc] at h
  rcases mem_sortDesc_aux h with h' | h'
  · simp at h'
  · exact h'

theorem pchTallyStep_key_source {g : DiGraph} {name : String} {inc : Include}
    {P : String → Prop} {acc : List (String × Nat × ℚ × List String)}
    (hacc : ∀ kv ∈ acc, P kv.1) (hinc : P inc.header) :
    ∀ kv ∈ pchTallyStep g name acc inc, P kv.1 := by
  intro kv hkv
  rw [pchTallyStep] at hkv
  rcases hpart : acc.partition (fun kv => kv.1 = inc.header) with ⟨fst, snd⟩
  rcases fst with _ | ⟨⟨s, n, c, files⟩, rest⟩ <;> rw [hpart] at hkv
  · rcases List.mem_append.mp hkv with hkv | hkv
    · exact hacc _ hkv
    · rcases List.mem_singleton.mp hkv with rfl
      exact hinc
  · rcases List.mem_map.mp hkv with ⟨kv', hmem', hkv'⟩
    subst hkv'
    by_cases hk : kv'.1 = inc.header
    · rw [if_pos hk]
      exact hacc kv' hmem'
    · rw [if_neg hk]
      exact hacc kv' hmem'

theorem pchTally_key_source (g : DiGraph) (analyses : List FileAnalysis) :
    ∀ kv ∈ pchTally g analyses,
      ∃ a ∈ analyses, ∃ inc ∈ a.includes, kv.1 = inc.header := by
  set P := fun (k : String) =>
    ∃ a ∈ analyses, ∃ inc ∈ a.includes, k = inc.header with hP
  have inner : ∀ (a : FileAnalysis), a ∈ analyses →
      ∀ (incs : List Include), (∀ i ∈ incs, i ∈ a.includes) →
      ∀ (acc : List (String × Nat × ℚ × List String)), (∀ kv ∈ acc, P kv.1) →
      ∀ kv ∈ incs.foldl
        (pchTallyStep g (String.mk (afterLastSlash a.filepath.data))) acc,
        P kv.1 := by
    intro a ha incs
    induction incs with
    | nil => intro _ acc hacc kv hkv; exact hacc kv hkv
    | cons i is ih =>
      intro hs acc hacc
      refine ih (fun j hj => hs j (List.mem_cons_of_mem _ hj)) _ ?_
      exact pchTallyStep_key_source hacc
        ⟨a, ha, i, hs i (List.mem_cons_self _ _), rfl⟩
  have outer : ∀ (l : List FileAnalysis), (∀ a ∈ l, a ∈ analyses) →
      ∀ (acc : List (String × Nat × ℚ × List String)), (∀ kv ∈ acc, P kv.1) →
      ∀ kv ∈ l.foldl (fun acc a =>
        a.includes.foldl
          (pchTallyStep g (String.mk (afterLastSlash a.filepath.data))) acc) acc,
        P kv.1 := by
    intro l
    induction l with
    | nil => intro _ acc hacc kv hkv; exact hacc kv hkv
    | cons a as ih =>
      intro hl acc hacc
      refine ih (fun b hb => hl b (List.mem_cons_of_mem _ hb)) _ ?_
      exact inner a (hl a (List.mem_cons_self _ _)) a.includes (fun _ h => h)
        acc hacc
  intro kv hkv
  exact outer analyses (fun _ h => h) [] (by simp) kv hkv

/-- Every entry of the stable-header table contains a `>` character. -/
theorem stableSystemHeaders_have_gt :
    ∀ s ∈ stableSystemHeaders, '>' ∈ s.data := by decide

theorem mem_addNew_left {a : String} :
    ∀ {xs acc : List String}, a ∈ acc → a ∈ addNew acc xs := by
  intro xs
  induction xs with
  | nil => exact fun h => h
  | cons x xs ih =>
    intro acc h
    rw [addNew, List.foldl_cons]
    apply ih
    split
    · exact h
    · exact List.mem_append_left _ h

theorem mem_addNew_right {x : String} :
    ∀ {xs acc : List String}, x ∈ xs → x ∈ addNew acc xs := by
  intro xs
  induction xs with
  | nil => simp
  | cons y ys ih =>
    intro acc h
    rcases List.mem_cons.mp h with rfl | h'
    · rw [addNew, List.foldl_cons]
      apply mem_addNew_left
      split
      · assumption
      · exact List.mem_append_right _ (List.mem_singleton_self _)
    · rw [addNew, List.foldl_cons]
      exact ih h'

theorem mem_iterSteps_of_mem {g : DiGraph} {a : String} :
    ∀ {n : ℕ} {s : List String}, a ∈ s → a ∈ iterSteps g n s := by
  intro n
  induction n with
  | zero => exact fun h => h
  | succ n ih =>
    intro s h
    rw [iterSteps]
    exact ih (mem_addNew_left h)

/-- Evaluation of the recommender on the three-file `<iostream>` example. -/
theorem recommendPch_example_eval :
    recommendPchHeaders pchExampleG pchExampleAnalyses = [pchExampleRec] := by
  have hb : getBaseCost "iostream" = 1500 := by decide
  have hd : getDependencyDepth pchExampleG "iostream" = 0 := by decide
  have ht : getTransitiveDependencies pchExampleG "iostream" = [] := by decide
  have hc : estimateHeaderCost pchExampleG "iostream" = 1500 := by
    simp [estimateHeaderCost, estimateTransitiveCost, hb, hd, ht]
  have htal : pchTally pchExampleG pchExampleAnalyses =
      [("iostream", 3, (1500 : ℚ), ["a.cpp", "b.cpp", "c.cpp"])] := by
    simp [pchTally, pchTallyStep, pchExampleAnalyses, afterLastSlash, hc]
  norm_num [recommendPchHeaders, htal, List.filterMap_cons, sortDesc, insertDesc,
    stableSystemHeaders, pchExampleRec]
  decide

/-- Claim C3, counterexample.  Three files each include `<iostream>`; the
stored header text is the bare `"iostream"`, which neither matches the
bracketed stable-header table nor starts with `<`, so the recommendation's
`pch_score` is `usage_count × cost × 1.0 = 4500`, not the
`usage_count × cost × 1.5 = 6750` the claim predicts for a known-stable
standard header included via angle brackets. -/
theorem pch_stability_bonus_counterexample :
    recommendPchHeaders pchExampleG pchExampleAnalyses = [pchExampleRec] ∧
    pchExampleRec.usage_count = 3 ∧ pchExampleRec.cost = 1500 ∧
    pchExampleRec.pch_score = 4500 ∧ (4500 : ℚ) ≠ 3 * 1500 * (3 / 2) := by
  refine ⟨recommendPch_example_eval, rfl, rfl, rfl, by norm_num⟩

/-- Claim C3 (amended): for recommendations produced from parsed
`FileAnalysis` records — whose include headers are the text between the
delimiters, hence never contain `>` and (for ordinary directives) never
start with `<` — the stability bonus always takes its neutral value 1.0:
the bracketed stable table can never match and the `<`-prefix system test
can never fire, so `pch_score = usage_count × cost` for system and user
headers alike. -/
theorem pch_score_formula (g : DiGraph) (analyses : List FileAnalysis)
    (h : ∀ a ∈ analyses, ∀ inc ∈ a.includes,
      ('>' ∉ inc.header.data) ∧ inc.header.data.head? ≠ some '<') :
    ∀ rec ∈ recommendPchHeaders g analyses,
      rec.is_stable = false ∧ rec.is_system = false ∧
      rec.pch_score = rec.usage_count * rec.cost := by
  intro rec hrec
  rw [recommendPchHeaders] at hrec
  have hrec' := mem_sortDesc (List.mem_of_mem_take hrec)
  rcases List.mem_filterMap.mp hrec' with ⟨⟨header, usageCount, cost, files⟩,
    hkv, hfm⟩
  rcases pchTally_key_source g analyses _ hkv with ⟨a, ha, inc, hinc, hkey⟩
  simp only at hkey
  subst hkey
  rcases h a ha inc hinc with ⟨hgt, hlt⟩
  have hnm : inc.header ∉ stableSystemHeaders := fun hmem =>
    hgt (stableSystemHeaders_have_gt _ hmem)
  simp only at hfm
  split_ifs at hfm with h1 h2
  rw [Option.some_inj] at hfm
  subst hfm
  exact ⟨by simp [hnm], by simp [hlt], by simp⟩

/-- Claim C3, witness. -/
theorem pch_score_formula_witness :
    ∃ rec ∈ recommendPchHeaders pchExampleG pchExampleAnalyses,
      rec.is_stable = false ∧ rec.is_system = false ∧
      rec.pch_score = rec.usage_count * rec.cost := by
  refine ⟨pchExampleRec, ?_, ?_⟩
  · rw [recommendPch_example_eval]
    exact List.mem_singleton_self _
  · refine pch_score_formula pchExampleG pchExampleAnalyses (by decide)
      pchExampleRec ?_
    rw [recommendPch_example_eval]
    exact List.mem_singleton_self _

/-- Claim C4, counterexample.  A file that includes itself is a direct
dependency of itself, but `networkx.descendants` always excludes the source
node, so the transitive-dependency set omits it: `transitive ⊉ direct`. -/
theorem transitive_superset_counterexample :
    "/a.h" ∈ getDirectDependencies selfExampleG "/a.h" ∧
    "/a.h" ∉ getTransitiveDependencies selfExampleG "/a.h" := by decide

/-- Claim C4 (amended): the transitive-dependency set contains every direct
dependency other than the file itself (a self-include is dropped, since
`networkx.descendants` excludes the source); and on the acyclic four-node
chain `a→b→c→d` the transitive dependencies of `a` are exactly
`{b, c, d}` and the dependency depth of `a` is 3. -/
theorem transitive_superset_and_chain :
    (∀ (g : DiGraph) (f d : String), d ∈ getDirectDependencies g f → d ≠ f →
      d ∈ getTransitiveDependencies g f) ∧
    getTransitiveDependencies chainExampleG "/a.cpp" = ["/b.h", "/c.h", "/d.h"] ∧
    getDependencyDepth chainExampleG "/a.cpp" = 3 := by
  refine ⟨?_, by decide, by decide⟩
  intro g f d hd hne
  by_cases hf : f ∈ g.nodes
  · rw [getDirectDependencies, if_pos hf] at hd
    rw [getTransitiveDependencies, if_pos hf, descendantsOf]
    have hpos : 0 < g.nodes.length := List.length_pos_of_mem hf
    have hlen : ∃ m, g.nodes.length = m + 1 := ⟨g.nodes.length - 1, by omega⟩
    rcases hlen with ⟨m, hm⟩
    rw [hm]
    refine List.mem_filter.mpr ⟨?_, by simpa using hne⟩
    show d ∈ iterSteps g m (stepOnce g [f])
    apply mem_iterSteps_of_mem
    rw [stepOnce]
    apply mem_addNew_right
    simpa using hd
  · rw [getDirectDependencies, if_neg hf] at hd
    exact absurd hd (List.not_mem_nil d)

/-- Claim C4, witness. -/
theorem transitive_superset_and_chain_witness :
    "/b.h" ∈ getTransitiveDependencies chainExampleG "/a.cpp" :=
  transitive_superset_and_chain.1 chainExampleG "/a.cpp" "/b.h"
    (by decide) (by decide)

/-- Claim C8: every query on a key that is not a node returns the
empty/zero result (the Python guards each query with
`if filepath not in self.graph`), and none of them can raise. -/
theorem unknown_key_queries (g : DiGraph) (k : String) (h : k ∉ g.nodes) :
    getDirectDependencies g k = [] ∧ getTransitiveDependencies g k = [] ∧
    getDependents g k = [] ∧ getDependencyDepth g k = 0 := by
  simp [getDirectDependencies, getTransitiveDependencies, getDependents,
    getDependencyDepth, h]

/-- Claim C8, witness. -/
theorem unknown_key_queries_witness :
    getDirectDependencies chainExampleG "unseen.h" = [] ∧
    getTransitiveDependencies chainExampleG "unseen.h" = [] ∧
    getDependents chainExampleG "unseen.h" = [] ∧
    getDependencyDepth chainExampleG "unseen.h" = 0 :=
  unknown_key_queries chainExampleG "unseen.h" (by decide)

theorem addNode_edges (g : DiGraph) (n : String) :
    (addNode g n).edges = g.edges := by
  rw [addNode]
  split <;> rfl

theorem addEdge_mem_edges {g : DiGraph} {u v : String} :
    ∀ e ∈ (addEdge g u v).edges, e ∈ g.edges ∨ e = (u, v) := by
  intro e he
  rw [addEdge] at he
  split at he
  · rw [addNode_edges, addNode_edges] at he
    exact Or.inl he
  · simp only [addNode_edges] at he
    rcases List.mem_append.mp he with h' | h'
    · exact Or.inl h'
    · exact Or.inr (List.mem_singleton.mp h')

theorem build_edges_src (analyses : List FileAnalysis) :
    ∀ e ∈ (build analyses).edges, e.1 ∈ analyses.map (·.filepath) := by
  have pass1 : ∀ (l : List FileAnalysis) (g : DiGraph),
      (l.foldl (fun g a => addNode g a.filepath) g).edges = g.edges := by
    intro l
    induction l with
    | nil => intro g; rfl
    | cons a as ih => intro g; rw [List.foldl_cons, ih, addNode_edges]
  have inner : ∀ (incs : List Include) (g : DiGraph) (fp : String),
      fp ∈ analyses.map (·.filepath) →
      (∀ e ∈ g.edges, e.1 ∈ analyses.map (·.filepath)) →
      ∀ e ∈ (incs.foldl (fun g inc => addEdge g fp (targetOf inc)) g).edges,
        e.1 ∈ analyses.map (·.filepath) := by
    intro incs
    induction incs with
    | nil => intro g fp _ hg; exact hg
    | cons i is ih =>
      intro g fp hfp hg
      rw [List.foldl_cons]
      refine ih _ fp hfp ?_
      intro e he
      rcases addEdge_mem_edges e he with h' | h'
      · exact hg e h'
      · rw [h']
        exact hfp
  have outer : ∀ (l : List FileAnalysis) (g : DiGraph),
      (∀ a ∈ l, a.filepath ∈ analyses.map (·.filepath)) →
      (∀ e ∈ g.edges, e.1 ∈ analyses.map (·.filepath)) →
      ∀ e ∈ (l.foldl (fun g a => a.includes.foldl
          (fun g inc => addEdge g a.filepath (targetOf inc)) g) g).edges,
        e.1 ∈ analyses.map (·.filepath) := by
    intro l
    induction l with
    | nil => intro g _ hg; exact hg
    | cons a as ih =>
      intro g hl hg
      rw [List.foldl_cons]
      refine ih _ (fun b hb => hl b (List.mem_cons_of_mem _ hb)) ?_
      exact inner a.includes g a.filepath (hl a (List.mem_cons_self _ _)) hg
  intro e he
  rw [build] at he
  refine outer analyses _ (fun a ha => List.mem_map.mpr ⟨a, ha, rfl⟩) ?_ e he
  intro e' he'
  rw [pass1] at he'
  exact absurd he' (List.not_mem_nil _)

theorem successors_eq_nil_of_not_src {g : DiGraph} {n : String}
    (h : ∀ e ∈ g.edges, e.1 ≠ n) : successors g n = [] := by
  rw [successors, List.filter_eq_nil_iff.mpr, List.map_nil]
  intro e he
  simpa using h e he

theorem iterSteps_singleton {g : DiGraph} {n : String}
    (hsucc : successors g n = []) : ∀ k, iterSteps g k [n] = [n] := by
  intro k
  induction k with
  | zero => rfl
  | succ k ih =>
    rw [iterSteps, show stepOnce g [n] = [n] from ?_]
    · exact ih
    · rw [stepOnce]
      simp [hsucc, addNew]

/-- Claim C10: every edge built by `DependencyGraph.build` starts at the
filepath of one of the input `FileAnalysis` records, so any node that is not
an analysed filepath (in particular every synthetic external node) has no
successors, an empty transitive-dependency set, and dependency depth 0. -/
theorem build_edge_sources_external_nodes (analyses : List FileAnalysis) :
    (∀ e ∈ (build analyses).edges, e.1 ∈ analyses.map (·.filepath)) ∧
    (∀ n, n ∉ analyses.map (·.filepath) →
      successors (build analyses) n = [] ∧
      getTransitiveDependencies (build analyses) n = [] ∧
      getDependencyDepth (build analyses) n = 0) := by
  refine ⟨build_edges_src analyses, ?_⟩
  intro n hn
  have hsucc : successors (build analyses) n = [] :=
    successors_eq_nil_of_not_src
      (fun e he hekey => hn (hekey ▸ build_edges_src analyses e he))
  refine ⟨hsucc, ?_, ?_⟩
  · rw [getTransitiveDependencies]
    split
    · rw [descendantsOf, iterSteps_singleton hsucc]
      simp
    · rfl
  · rw [getDependencyDepth]
    split
    · rw [descendantsOf, iterSteps_singleton hsucc]
      simp
    · rfl

/-- Claim C10, witness. -/
theorem build_edge_sources_external_nodes_witness :
    "/a.cpp" ∈ pchExampleAnalyses.map (·.filepath) ∧
    successors (build pchExampleAnalyses) "<iostream>" = [] ∧
    getTransitiveDependencies (build pchExampleAnalyses) "<iostream>" = [] ∧
    getDependencyDepth (build pchExampleAnalyses) "<iostream>" = 0 :=
  ⟨(build_edge_sources_external_nodes pchExampleAnalyses).1
      ("/a.cpp", "<iostream>") (by decide),
   (build_edge_sources_external_nodes pchExampleAnalyses).2
      "<iostream>" (by decide)⟩

/-- The symbol table only holds nonempty symbol strings, so no signature
symbol can be found in an empty file. -/
theorem checkSymbolUsage_empty (header : String) :
    checkSymbolUsage header [] = false := by
  rw [checkSymbolUsage]
  rcases hf : headerSymbols.find? (fun kv => containsSub kv.1.data header.data)
    with _ | kv
  · rw [hf]
  · rw [hf]
    have hmem := List.mem_of_find?_eq_some hf
    have hne : ∀ kv ∈ headerSymbols, ∀ s ∈ kv.2, s.data.isEmpty = false := by
      decide
    simp only [List.any_eq_false]
    intro s hs
    show ¬ (containsSub s.data [] = true)
    rw [containsSub, hne kv hmem s hs]
    simp

/-- Claim C7, counterexample.  The claim quantifies over every call of
`check_header_usage`; calling it on an empty (readable) file with the empty
header name returns `(True, 1/3)`, not `(False, 0.0)`: `Path("").stem` is the
empty string and Python's empty-substring test `"" in text` is always true,
so the name signal fires. -/
theorem check_usage_empty_counterexample :
    checkHeaderUsage (some []) "" = (true, 1 / 3) ∧
    ((true, (1 : ℚ) / 3) ≠ ((false : Bool), (0 : ℚ))) := by
  constructor
  · have hstrip : stripIncludes ([] : List Char) = [] := by simp [stripIncludes]
    have hstd : hasStdColons false [] = false := by simp [hasStdColons]
    simp only [checkHeaderUsage, hstrip, hstd, checkSymbolUsage_empty]
    norm_num [pyStem, afterLastSlash, pyLower, containsSub, isPrefList]
  · simp

/-- Claim C7 (amended): the confidence returned by `check_header_usage` is
always in `[0, 1]`; an unreadable file returns `(True, 0.0)`; and an empty
(zero-byte) file returns `(False, 0.0)` for every header whose base filename
(`Path(header).stem`) is nonempty — with an empty base name the
empty-substring name check fires instead. -/
theorem check_usage_bounds :
    (∀ (content? : Option (List Char)) (header : String),
      0 ≤ (checkHeaderUsage content? header).2 ∧
      (checkHeaderUsage content? header).2 ≤ 1) ∧
    (∀ header : String, checkHeaderUsage none header = (true, 0)) ∧
    (∀ header : String, pyStem header.data ≠ [] →
      checkHeaderUsage (some []) header = (false, 0)) := by
  refine ⟨?_, fun header => rfl, ?_⟩
  · intro content? header
    rcases content? with _ | raw
    · constructor <;> norm_num [checkHeaderUsage]
    · simp only [checkHeaderUsage]
      constructor <;> split_ifs <;> norm_num
  · intro header hstem
    have hstrip : stripIncludes ([] : List Char) = [] := by simp [stripIncludes]
    have hstd : hasStdColons false [] = false := by simp [hasStdColons]
    have hp1 : containsSub (pyLower (pyStem header.data)) (pyLower []) = false := by
      simp only [pyLower, List.map_nil, containsSub]
      simp [List.isEmpty_iff, hstem]
    simp only [checkHeaderUsage, hstrip, hstd, hp1, checkSymbolUsage_empty]
    norm_num

/-- Claim C7, witness. -/
theorem check_usage_bounds_witness :
    checkHeaderUsage (some []) "iostream" = (false, 0) ∧
    0 ≤ (checkHeaderUsage none "iostream").2 ∧
    (checkHeaderUsage none "iostream").2 ≤ 1 :=
  ⟨check_usage_bounds.2.2 "iostream" (by decide),
   check_usage_bounds.1 none "iostream"⟩

theorem linesOf_ne_nil (l : List Char) : linesOf l ≠ [] := by
  induction l with
  | nil => simp [linesOf]
  | cons c xs ih =>
    rw [linesOf]
    split
    · simp
    · split <;> simp

theorem nbT_eq (l : List Char) :
    (nbT l).1 = (linesOf l).countP (fun ln => !blankLine ln) ∧
    (nbT l).2 = (linesOf l).tail.countP (fun ln => !blankLine ln) := by
  induction l with
  | nil => simp [nbT, linesOf, blankLine]
  | cons c xs ih =>
    rcases hL : linesOf xs with _ | ⟨h, t⟩
    · exact absurd hL (linesOf_ne_nil xs)
    · by_cases hc : c = '\n'
      · subst hc
        rw [nbT, linesOf]
        simp only [if_pos rfl, hL] at ih ⊢
        simp [List.countP_cons, blankLine, ih.1, ih.2]
      · have hlc : linesOf (c :: xs) = (c :: h) :: t := by
          rw [linesOf, if_neg hc, hL]
        by_cases hs : isPySpace c
        · have hb : blankLine (c :: h) = blankLine h := by
            simp [blankLine, hs]
          rw [nbT]
          simp only [if_neg (by simpa [isPySpace] using hc), if_pos hs, hlc,
            hL] at ih ⊢
          simp [List.countP_cons, hb, ih.1, ih.2]
        · have hb : blankLine (c :: h) = false := by
            simp [blankLine, hs]
          rw [nbT]
          simp only [if_neg (by simpa [isPySpace] using hc), if_neg hs, hlc,
            hL] at ih ⊢
          simp [List.countP_cons, hb, ih.1, ih.2]
          omega

theorem nbT_snd_le_fst (l : List Char) : (nbT l).2 ≤ (nbT l).1 := by
  induction l with
  | nil => simp [nbT]
  | cons c xs ih =>
    rw [nbT]
    split
    · simp
    · split
      · exact ih
      · simp

theorem nbT_fst_le_snd_succ (l : List Char) : (nbT l).1 ≤ (nbT l).2 + 1 := by
  induction l with
  | nil => simp [nbT]
  | cons c xs ih =>
    rw [nbT]
    split
    · simp
    · split
      · exact ih
      · omega

theorem nbT_le_cons (c : Char) (l : List Char) :
    (nbT l).1 ≤ (nbT (c :: l)).1 ∧ (nbT l).2 ≤ (nbT (c :: l)).2 := by
  have h1 := nbT_snd_le_fst l
  have h2 := nbT_fst_le_snd_succ l
  rw [nbT]
  split
  · exact ⟨le_refl _, h1⟩
  · split
    · exact ⟨le_refl _, le_refl _⟩
    · exact ⟨by omega, le_refl _⟩

theorem nbT_le_of_suffix {l₂ l₁ : List Char} (h : l₂ <:+ l₁) :
    (nbT l₂).1 ≤ (nbT l₁).1 ∧ (nbT l₂).2 ≤ (nbT l₁).2 := by
  obtain ⟨pre, rfl⟩ := h
  induction pre with
  | nil => exact ⟨le_refl _, le_refl _⟩
  | cons c cs ih =>
    have hc := nbT_le_cons c (cs ++ l₂)
    exact ⟨ih.1.trans hc.1, ih.2.trans hc.2⟩

theorem nbT_cons_mono {a b : List Char} (h1 : (nbT a).1 ≤ (nbT b).1)
    (h2 : (nbT a).2 ≤ (nbT b).2) (c : Char) :
    (nbT (c :: a)).1 ≤ (nbT (c :: b)).1 ∧
    (nbT (c :: a)).2 ≤ (nbT (c :: b)).2 := by
  by_cases hc : c = '\n'
  · simp [nbT, hc]
    omega
  · by_cases hs : isPySpace c <;> simp [nbT, hc, hs] <;> omega

theorem dropClose_suffix (l : List Char) : dropClose l <:+ l := by
  induction l using dropClose.induct with
  | case1 rest =>
    rw [dropClose]
    exact (List.suffix_cons '/' rest).trans (List.suffix_cons '*' _)
  | case2 c rest h ih =>
    rw [show dropClose (c :: rest) = dropClose rest from by
      cases c; simp_all [dropClose]]
    exact ih.trans (List.suffix_cons c rest)
  | case3 => simp [dropClose]

theorem stripBlock_cons_ne (c : Char) (rest : List Char)
    (h : ∀ r, c = '/' → rest = '*' :: r → False) :
    stripBlock (c :: rest) = c :: stripBlock rest := by
  rw [stripBlock.eq_def]
  split
  · rename_i r heq
    obtain ⟨h1, h2⟩ := List.cons.inj heq
    exact (h r h1 h2).elim
  · rename_i z c2 rest2 hside heq
    obtain ⟨h1, h2⟩ := List.cons.inj heq
    rw [h1, h2]
  · rename_i heq
    exact (List.noConfusion heq)

theorem stripBlock_nbT_le (l : List Char) :
    (nbT (stripBlock l)).1 ≤ (nbT l).1 ∧
    (nbT (stripBlock l)).2 ≤ (nbT l).2 := by
  induction l using stripBlock.induct with
  | case1 rest h ih =>
    rw [show stripBlock ('/' :: '*' :: rest) = stripBlock (dropClose rest) from
      by rw [stripBlock, if_pos h]]
    have hsfx : dropClose rest <:+ '/' :: '*' :: rest :=
      (dropClose_suffix rest).trans
        ((List.suffix_cons '*' rest).trans (List.suffix_cons '/' _))
    have hle := nbT_le_of_suffix hsfx
    exact ⟨ih.1.trans hle.1, ih.2.trans hle.2⟩
  | case2 rest h =>
    rw [show stripBlock ('/' :: '*' :: rest) = '/' :: '*' :: rest from
      by rw [stripBlock, if_neg h]]
    exact ⟨le_refl _, le_refl _⟩
  | case3 c rest hside ih =>
    rw [stripBlock_cons_ne c rest hside]
    exact nbT_cons_mono ih.1 ih.2 c
  | case4 => simp [stripBlock]

theorem stripLine_cons_ne (c : Char) (rest : List Char)
    (h : ∀ r, c = '/' → rest = '/' :: r → False) :
    stripLine (c :: rest) = c :: stripLine rest := by
  rw [stripLine.eq_def]
  split
  · rename_i r heq
    obtain ⟨h1, h2⟩ := List.cons.inj heq
    exact (h r h1 h2).elim
  · rename_i z c2 rest2 hside heq
    obtain ⟨h1, h2⟩ := List.cons.inj heq
    rw [h1, h2]
  · rename_i heq
    exact (List.noConfusion heq)

theorem stripLine_nbT_le (l : List Char) :
    (nbT (stripLine l)).1 ≤ (nbT l).1 ∧
    (nbT (stripLine l)).2 ≤ (nbT l).2 := by
  induction l using stripLine.induct with
  | case1 rest ih =>
    rw [show stripLine ('/' :: '/' :: rest) =
        stripLine (rest.dropWhile (· ≠ '\n')) from by rw [stripLine]]
    have hsfx : rest.dropWhile (· ≠ '\n') <:+ '/' :: '/' :: rest :=
      (List.dropWhile_suffix _).trans
        ((List.suffix_cons '/' rest).trans (List.suffix_cons '/' _))
    have hle := nbT_le_of_suffix hsfx
    exact ⟨ih.1.trans hle.1, ih.2.trans hle.2⟩
  | case2 c rest hside ih =>
    rw [stripLine_cons_ne c rest hside]
    exact nbT_cons_mono ih.1 ih.2 c
  | case3 => simp [stripLine]

theorem nbLines_removeComments_le (l : List Char) :
    nbLines (removeComments l) ≤ nbLines l := by
  have h1 := (stripLine_nbT_le (stripBlock l)).1
  have h2 := (stripBlock_nbT_le l).1
  have e : ∀ m : List Char, (nbT m).1 = nbLines m := fun m => (nbT_eq m).1
  rw [removeComments, ← e, ← e]
  exact h1.trans h2

theorem countP_blank_split (L : List (List Char)) :
    L.countP (fun ln => !blankLine ln) + L.countP blankLine = L.length := by
  induction L with
  | nil => rfl
  | cons x xs ih =>
    rw [List.countP_cons, List.countP_cons]
    cases h : blankLine x <;> simp [h] <;> omega

/-- Claim C6: for every readable file content, the metrics computed by
`parse_file` satisfy `code_lines + comment_lines + blank_lines ==
total_lines`, and all four counts are non-negative (`total_lines`,
`code_lines` and `blank_lines` are counts by construction; the derived
`comment_lines = total - code - blank` is non-negative because comment
stripping never increases the number of non-blank lines). -/
theorem parse_metrics_consistent (content : List Char) :
    ((parseMetrics content).code_lines : ℤ) +
      (parseMetrics content).comment_lines +
      (parseMetrics content).blank_lines =
      (parseMetrics content).total_lines ∧
    0 ≤ (parseMetrics content).comment_lines := by
  have hle : nbLines (removeComments content) + blLines content ≤
      (linesOf content).length := by
    have h1 := nbLines_removeComments_le content
    have h2 : nbLines content + blLines content = (linesOf content).length :=
      countP_blank_split (linesOf content)
    omega
  simp only [parseMetrics]
  constructor
  · ring
  · omega

theorem rhe_intCast (n : ℤ) : rhe (n : ℚ) = n := by
  rw [rhe, Int.floor_intCast]
  norm_num

theorem rhe_nonneg {q : ℚ} (h : 0 ≤ q) : 0 ≤ rhe q := by
  rw [rhe]
  split_ifs with ht hev
  · exact Int.floor_nonneg.mpr h
  · have := Int.floor_nonneg.mpr h
    omega
  · rw [round_eq]
    exact Int.floor_nonneg.mpr (by linarith)

theorem rhe_le_intCast {q : ℚ} {M : ℤ} (h : q ≤ (M : ℚ)) : rhe q ≤ M := by
  rw [rhe]
  split_ifs with ht hev
  · exact (Int.floor_mono h).trans_eq (Int.floor_intCast M)
  · have hfl : (⌊q⌋ : ℚ) < (M : ℚ) := by linarith
    have := Int.cast_lt.mp hfl
    omega
  · rw [round_eq]
    rw [Int.floor_le_iff]
    linarith

theorem rhe_ge_sub_half (q : ℚ) : q - 1 / 2 ≤ (rhe q : ℚ) := by
  rw [rhe]
  split_ifs with ht hev
  · linarith
  · push_cast
    linarith
  · rw [round_eq]
    have := Int.sub_one_lt_floor (q + 1 / 2)
    linarith

theorem pyRound1_pos {q : ℚ} (h : 150 ≤ q) : 0 < pyRound1 q := by
  rw [pyRound1]
  have hge := rhe_ge_sub_half (10 * q)
  have : (0 : ℚ) < (rhe (10 * q) : ℚ) := by linarith
  exact div_pos this (by norm_num)

theorem pyRound1_grid (n : ℤ) : pyRound1 ((n : ℚ) / 10) = (n : ℚ) / 10 := by
  rw [pyRound1, show (10 : ℚ) * ((n : ℚ) / 10) = (n : ℚ) from by ring,
    rhe_intCast]

theorem pyRound1_nonneg {q : ℚ} (h : 0 ≤ q) : 0 ≤ pyRound1 q := by
  rw [pyRound1]
  have : (0 : ℚ) ≤ (rhe (10 * q) : ℚ) := by
    exact_mod_cast rhe_nonneg (by linarith)
  linarith

theorem pyRound1_le_100 {q : ℚ} (h : q ≤ 100) : pyRound1 q ≤ 100 := by
  rw [pyRound1]
  have h1000 : rhe (10 * q) ≤ (1000 : ℤ) := rhe_le_intCast (by push_cast; linarith)
  have : ((rhe (10 * q) : ℚ)) ≤ 1000 := by exact_mod_cast h1000
  linarith

theorem getBaseCost_ge (header : String) : (150 : ℚ) ≤ getBaseCost header := by
  rw [getBaseCost]
  split
  · rename_i kv heq
    have hmem := List.mem_of_find?_eq_some heq
    have hval : ∀ kv ∈ EXPENSIVE_HEADERS, (150 : ℚ) ≤ kv.2 := by decide
    exact hval kv hmem
  · split <;> norm_num

theorem estimateTransitiveCost_nonneg (g : DiGraph) (header : String) :
    0 ≤ estimateTransitiveCost g header := by
  rw [estimateTransitiveCost]
  split <;> positivity

theorem estimateHeaderCost_ge (g : DiGraph) (header : String)
    (analysis : Option FileAnalysis) :
    (150 : ℚ) ≤ estimateHeaderCost g header analysis := by
  rw [estimateHeaderCost.eq_def]
  have hb := getBaseCost_ge header
  have ht := estimateTransitiveCost_nonneg g header
  rcases analysis with _ | a
  · simp only
    linarith
  · simp only
    have hl : (0 : ℚ) ≤ (a.total_lines : ℚ) * (1 / 2) := by positivity
    have hcnt : (0 : ℚ) ≤ ((countSub "template".data header.data : ℚ)) * 200 := by
      positivity
    have hcls : (0 : ℚ) ≤ (a.class_count : ℚ) * 50 := by positivity
    have hns : (0 : ℚ) ≤ (a.namespace_count : ℚ) * 10 := by positivity
    split_ifs with htpl hmac hmac <;> nlinarith

theorem analyzeFileCosts_entries (g : DiGraph) (fs : String → Option (List Char))
    (analysis : FileAnalysis) (allAnalyses : List (String × FileAnalysis)) :
    ∀ e ∈ analyzeFileCosts g fs analysis allAnalyses,
      0 < e.estimated_cost ∧ ∃ n : ℤ, e.estimated_cost = (n : ℚ) / 10 := by
  intro e he
  rw [analyzeFileCosts] at he
  have he' := mem_sortDesc he
  rcases List.mem_map.mp he' with ⟨inc, hinc, heq⟩
  subst heq
  refine ⟨pyRound1_pos (estimateHeaderCost_ge g inc.header _), ?_⟩
  exact ⟨rhe (10 * estimateHeaderCost g inc.header
    (lookup? allAnalyses inc.full_path)), rfl⟩

theorem sum_map_filter_le {p : CostEntry → Bool} (l : List CostEntry)
    (h : ∀ x ∈ l, 0 ≤ x.estimated_cost) :
    ((l.filter p).map (·.estimated_cost)).sum ≤
      (l.map (·.estimated_cost)).sum := by
  induction l with
  | nil => simp
  | cons x xs ih =>
    have hx := h x (List.mem_cons_self _ _)
    have ih' := ih (fun y hy => h y (List.mem_cons_of_mem _ hy))
    rw [List.filter_cons]
    split
    · simp only [List.map_cons, List.sum_cons]
      linarith
    · simp only [List.map_cons, List.sum_cons]
      linarith

theorem sum_grid {l : List ℚ} (h : ∀ x ∈ l, ∃ n : ℤ, x = (n : ℚ) / 10) :
    ∃ m : ℤ, l.sum = (m : ℚ) / 10 := by
  induction l with
  | nil => exact ⟨0, by simp⟩
  | cons x xs ih =>
    obtain ⟨n, hn⟩ := h x (List.mem_cons_self _ _)
    obtain ⟨m, hm⟩ := ih (fun y hy => h y (List.mem_cons_of_mem _ hy))
    refine ⟨n + m, ?_⟩
    rw [List.sum_cons, hn, hm]
    push_cast
    ring

/-- Claim C9: in every per-file report, each per-include `estimated_cost` is
strictly positive (the base-cost table and its defaults are all ≥ 150 and
every other component is non-negative, so rounding to one decimal stays
positive), `0 ≤ wasted_cost ≤ total_estimated_cost` (both are sums of
already-rounded one-decimal values, so their own rounding is the identity),
and `potential_savings_pct` lies in `[0, 100]`, with `total_cost = 0`
short-circuiting the percentage to 0. -/
theorem generate_report_invariants (g : DiGraph)
    (fs : String → Option (List Char)) (analysis : FileAnalysis)
    (allAnalyses : List (String × FileAnalysis)) :
    (∀ e ∈ (generateReport g fs analysis allAnalyses).all_includes,
      0 < e.estimated_cost) ∧
    0 ≤ (generateReport g fs analysis allAnalyses).wasted_cost ∧
    (generateReport g fs analysis allAnalyses).wasted_cost ≤
      (generateReport g fs analysis allAnalyses).total_estimated_cost ∧
    0 ≤ (generateReport g fs analysis allAnalyses).potential_savings_pct ∧
    (generateReport g fs analysis allAnalyses).potential_savings_pct ≤ 100 := by
  have hent := analyzeFileCosts_entries g fs analysis allAnalyses
  have hnn : ∀ e ∈ analyzeFileCosts g fs analysis allAnalyses,
      0 ≤ e.estimated_cost := fun e he => le_of_lt (hent e he).1
  simp only [generateReport]
  set costs := analyzeFileCosts g fs analysis allAnalyses with hcosts
  set total := (costs.map (·.estimated_cost)).sum with htotal
  set unused := ((costs.filter fun c => !c.likely_used).map
    (·.estimated_cost)).sum with hunused
  have h0u : 0 ≤ unused := by
    rw [hunused]
    refine List.sum_nonneg ?_
    intro x hx
    rcases List.mem_map.mp hx with ⟨e, he, heq⟩
    exact heq ▸ hnn e (List.mem_of_mem_filter he)
  have hut : unused ≤ total := sum_map_filter_le costs hnn
  obtain ⟨mt, hmt⟩ : ∃ m : ℤ, total = (m : ℚ) / 10 := by
    refine sum_grid ?_
    intro x hx
    rcases List.mem_map.mp hx with ⟨e, he, heq⟩
    exact heq ▸ (hent e he).2
  obtain ⟨mu, hmu⟩ : ∃ m : ℤ, unused = (m : ℚ) / 10 := by
    refine sum_grid ?_
    intro x hx
    rcases List.mem_map.mp hx with ⟨e, he, heq⟩
    exact heq ▸ (hent e (List.mem_of_mem_filter he)).2
  have hrt : pyRound1 total = total := by rw [hmt, pyRound1_grid]
  have hru : pyRound1 unused = unused := by rw [hmu, pyRound1_grid]
  refine ⟨fun e he => (hent e he).1, ?_, ?_, ?_, ?_⟩
  · simpa [hru] using h0u
  · simpa [hru, hrt] using hut
  · split_ifs with hpos
    · exact pyRound1_nonneg (by positivity)
    · simpa using pyRound1_nonneg (le_refl (0 : ℚ))
  · split_ifs with hpos
    · refine pyRound1_le_100 ?_
      have hdiv : unused / total ≤ 1 := (div_le_one hpos).mpr hut
      linarith
    · have : pyRound1 0 = 0 := by
        simpa using pyRound1_grid 0
      rw [this]
      norm_num

/-- Claim C9, witness. -/
theorem generate_report_invariants_witness :
    (∃ e ∈ (generateReport chainExampleG unreadableFs reportExampleAnalysis
        []).all_includes, 0 < e.estimated_cost) ∧
    0 ≤ (generateReport chainExampleG unreadableFs reportExampleAnalysis
        []).wasted_cost ∧
    (generateReport chainExampleG unreadableFs reportExampleAnalysis
        []).potential_savings_pct ≤ 100 := by
  have he₀ : (generateReport chainExampleG unreadableFs
      reportExampleAnalysis []).all_includes = [reportExampleEntry] := by
    simp [generateReport, analyzeFileCosts, sortDesc, insertDesc,
      reportExampleAnalysis, lookup?, unreadableFs, checkHeaderUsage,
      reportExampleEntry]
  have h := generate_report_invariants chainExampleG unreadableFs
    reportExampleAnalysis []
  refine ⟨⟨reportExampleEntry, ?_, h.1 reportExampleEntry ?_⟩,
    h.2.1, h.2.2.2.2⟩ <;> rw [he₀] <;> exact List.mem_singleton_self _

end IncludeGuard
